import Mathlib

/-!
Verification development for the repository export core of Boost2Git
(`src/repository.cpp`).  The C++ code is shallowly embedded: Qt containers
become lists and association lists, `QString`/`QByteArray` become `String` or
`List Char`, fatal assertions (`Q_ASSERT`) become `Option` (with `none` the
abort), and Qt diagnostics (`qCritical`, warnings) are recorded explicitly
where a claim depends on them.  Each definition carries the source location it
embeds.
-/

namespace Boost2Git

/-! ### Character and string utilities

These model the Qt string primitives the source uses (`startsWith`,
`contains`, `indexOf`, `mid`, `trimmed`, `toInt`).  We work on `List Char`
and avoid library string-search helpers so the semantics are explicit. -/

/-- Does the first list start with the second (models `QString::startsWith` /
a regex literal prefix)? -/
def startsWithChars : List Char → List Char → Bool
  | _, [] => true
  | [], _ :: _ => false
  | c :: s, p :: ps => c == p && startsWithChars s ps

/-- Does the first list contain the second as a contiguous run
(models `std::string::find(...) != npos`)? -/
def containsChars : List Char → List Char → Bool
  | [], pat => pat.isEmpty
  | c :: s, pat => startsWithChars (c :: s) pat || containsChars s pat

/-- Substring containment on `String` (models `log.find("...") != npos`,
repository.cpp line 863). -/
def strContains (s pat : String) : Bool :=
  containsChars s.data pat.data

/-- Nonempty and all decimal digits. -/
def isDigits (s : List Char) : Bool :=
  !s.isEmpty && s.all (fun c => c.isDigit)

/-- Value of a digit string (used only on all-digit input). -/
def digitsToInt (s : List Char) : Int :=
  s.foldl (fun n c => n * 10 + Int.ofNat (c.toNat - 48)) 0

/-- Models `QString::toInt`: an optional sign followed by digits parses to its
value, anything else yields 0 (Qt returns 0 on failure). -/
def qToInt (s : List Char) : Int :=
  match s with
  | '-' :: rest => if isDigits rest then - digitsToInt rest else 0
  | '+' :: rest => if isDigits rest then digitsToInt rest else 0
  | _ => if isDigits s then digitsToInt s else 0

/-- ASCII whitespace as stripped by `QByteArray::trimmed`. -/
def isSpaceChar (c : Char) : Bool :=
  c == ' ' || c == '\t' || c == '\n' || c == '\r' || c == '\x0b' || c == '\x0c'

/-- Models `QByteArray::trimmed`: strip whitespace from both ends. -/
def trimChars (s : List Char) : List Char :=
  ((s.dropWhile isSpaceChar).reverse.dropWhile isSpaceChar).reverse

/-- Models `line.truncate(line.indexOf('#'))` in `setupIncremental`
(repository.cpp lines 198-200): keep everything before the first `#`. -/
def takeUntilHash (s : List Char) : List Char :=
  s.takeWhile (fun c => !(c == '#'))

/-! ### The branch record (data model of `Repository::Branch`)

`repository.h` is not part of the sources given; the record layout is fixed
by its uses in repository.cpp and by the spec (section 3): `created` is the
establishing SVN revision (0 = declared but never populated), `commits` and
`marks` are the parallel revision/mark arrays, `note` the accumulated note.
Modelled from the spec: a default-constructed record (as produced by
`QHash::operator[]` on a missing key) has `created = 0` and empty arrays. -/

structure Branch where
  created : Int
  commits : List Int
  marks : List Int
  note : String
deriving Repr, DecidableEq

/-- The value-initialized `Branch` inserted by `QHash::operator[]`. -/
def defaultBranch : Branch :=
  { created := 0, commits := [], marks := [], note := "" }

/-! ### Association lists (model of `QHash` keyed by ref name)

`QHash` holds at most one value per key; iteration order is unspecified, so a
list in insertion order is a faithful refinement for every property proved
here (none depends on intra-map order). -/

/-- Key lookup (models `QHash::value` / `QHash::contains`). -/
def alookup {α : Type} : List (String × α) → String → Option α
  | [], _ => none
  | (k', v) :: rest, k => if k' = k then some v else alookup rest k

/-- Store a value under a key, inserting at the end if absent
(models `hash[key] = v` after `operator[]` default-insertion). -/
def aset {α : Type} : List (String × α) → String → α → List (String × α)
  | [], k, v => [(k, v)]
  | (k', v') :: rest, k, v =>
    if k' = k then (k', v) :: rest else (k', v') :: aset rest k v

/-- Append bytes to the payload stored under a key, inserting an empty payload
first if absent (models `hash[key].append(bytes)`). -/
def aappend : List (String × String) → String → String → List (String × String)
  | [], k, v => [(k, v)]
  | (k', v') :: rest, k, v =>
    if k' = k then (k', v' ++ v) :: rest else (k', v') :: aappend rest k v

/-- Remove a key (models `QHash::remove`). -/
def aremove : List (String × String) → String → List (String × String)
  | [], _ => []
  | (k', v') :: rest, k =>
    if k' = k then aremove rest k else (k', v') :: aremove rest k

/-- Models `QHash::contains`. -/
def containsKey (m : List (String × String)) (k : String) : Bool :=
  (alookup m k).isSome

/-! ### Mark allocator (repository.cpp lines 35, 521-527, 750-755, 813-823)

Two counters share one numeric space: commit marks ascend from 1, file-blob
marks descend from `maxMark`.  `Q_ASSERT` is modelled as `Option`: `none` is
the aborted run. -/

/-- `maxMark = (1 << 20) - 2` (repository.cpp line 35). -/
def maxMark : Int := 2 ^ 20 - 2

/-- The mark-allocation state of one `Repository`. -/
structure MarkState where
  last_commit_mark : Int
  next_file_mark : Int
  outstandingTransactions : Int
deriving Repr, DecidableEq

/-- Commit-mark allocation in `Transaction::commit` (lines 820-823):
`int mark = ++last_commit_mark; Q_ASSERT(mark < next_file_mark - 1);`. -/
def allocCommitMark (s : MarkState) : Option (Int × MarkState) :=
  let mark := s.last_commit_mark + 1
  let s' : MarkState := { s with last_commit_mark := mark }
  if mark < s'.next_file_mark - 1 then some (mark, s') else none

/-- Blob-mark allocation in `Transaction::addFile` (lines 750-755):
`int mark = next_file_mark--; Q_ASSERT(mark > last_commit_mark + 1);`. -/
def addFileMark (s : MarkState) : Option (Int × MarkState) :=
  let mark := s.next_file_mark
  let s' : MarkState := { s with next_file_mark := s.next_file_mark - 1 }
  if mark > s'.last_commit_mark + 1 then some (mark, s') else none

/-- `Repository::forgetTransaction` (lines 521-527): decrement the
outstanding-transaction count; on reaching zero reset `next_file_mark`. -/
def forgetTransactionMarks (s : MarkState) : MarkState :=
  let o := s.outstandingTransactions - 1
  if o = 0 then
    { s with outstandingTransactions := o, next_file_mark := maxMark }
  else
    { s with outstandingTransactions := o }

/-- The `outstandingTransactions++` of `Repository::newTransaction`
(line 517). -/
def newTransactionMarks (s : MarkState) : MarkState :=
  { s with outstandingTransactions := s.outstandingTransactions + 1 }

/-- `n` consecutive successful blob-mark allocations (used to exhibit
reachability of boundary states of the allocator). -/
def iterBlob : Nat → MarkState → Option MarkState
  | 0, s => some s
  | n + 1, s =>
    match addFileMark s with
    | none => none
    | some (_, s') => iterBlob n s'

/-! ### `Repository::markFrom` (repository.cpp lines 325-355) -/

/-- `qUpperBound(brFrom.commits, branchRevNum)` as an index: on a sorted
vector, the first position holding an element greater than the probe, which
on sorted input equals the number of elements less than or equal to it. -/
def qUpperBound (v : List Int) (x : Int) : Nat :=
  v.countP (fun r => decide (r ≤ x))

/-- The value `Repository::markFrom` computes from the source branch record
(lines 330-355).  The `branchFromDesc` out-parameter only accumulates a human
readable description and does not influence the returned mark or any state;
it is omitted. -/
def markFromBranch (brFrom : Branch) (branchRevNum : Int) : Int :=
  if brFrom.created = 0 then -1
  else if brFrom.commits.isEmpty then -1
  else if branchRevNum = brFrom.commits.getLastD 0 then brFrom.marks.getLastD 0
  else
    let i := qUpperBound brFrom.commits branchRevNum
    if i = 0 then 0
    else brFrom.marks.getD (i - 1) 0

/-- `Repository::markFrom` at the registry level: `Branch &brFrom =
branches[branchFrom]` (line 329) inserts a value-initialized record when the
ref is unknown, a side effect the function keeps even on the `-1` paths. -/
def markFromRepo (bs : List (String × Branch)) (branchFrom : String)
    (branchRevNum : Int) : Int × List (String × Branch) :=
  match alookup bs branchFrom with
  | some br => (markFromBranch br branchRevNum, bs)
  | none => (markFromBranch defaultBranch branchRevNum,
             bs ++ [(branchFrom, defaultBranch)])

/-- `Repository::branchExists` (lines 662-665). -/
def branchExistsModel (bs : List (String × Branch)) (branch : String) : Bool :=
  (alookup bs branch).isSome

/-- `Transaction::noteCopyFromBranch` (lines 698-740): reject self-merges,
resolve the source mark via `markFrom` (with its registry side effect), and
stage resolvable non-duplicate marks as merge parents. -/
def noteCopyFromBranchModel (bs : List (String × Branch))
    (selfBranch branchFrom : String) (branchRevNum : Int)
    (merges : List Int) : List Int × List (String × Branch) :=
  if selfBranch = branchFrom then (merges, bs)
  else
    let r := markFromRepo bs branchFrom branchRevNum
    if r.1 = -1 then (merges, r.2)
    else if r.1 = 0 then (merges, r.2)
    else if merges.contains r.1 then (merges, r.2)
    else (merges ++ [r.1], r.2)

/-! ### Branch-record updates performed by the three appending operations -/

/-- The record update of `Repository::resetBranch` (lines 441-443):
`br.created = revnum; br.commits.append(revnum); br.marks.append(mark);`. -/
def resetBranchRecord (br : Branch) (revnum mark : Int) : Branch :=
  { br with created := revnum,
            commits := br.commits ++ [revnum],
            marks := br.marks ++ [mark] }

/-- The parentage determination and record update of `Transaction::commit`
(lines 832-846).  Returns `(parentmark, warned, updated record)`: the parent
is the last `marks` entry when the branch is created, has marks and that last
entry is non-zero; otherwise the commit is parentless, a warning is issued
exactly when `incremental` is set, and `created` is set to `revnum`. -/
def txnCommitBranch (br : Branch) (revnum mark : Int) (incremental : Bool) :
    Int × Bool × Branch :=
  if br.created ≠ 0 ∧ ¬ br.marks.isEmpty ∧ br.marks.getLastD 0 ≠ 0 then
    (br.marks.getLastD 0, false,
     { br with commits := br.commits ++ [revnum], marks := br.marks ++ [mark] })
  else
    (0, incremental,
     { br with created := revnum,
               commits := br.commits ++ [revnum],
               marks := br.marks ++ [mark] })

/-- The record update of the `setupIncremental` replay loop (lines 233-237):
`if (!br.created || !mark || br.marks.isEmpty() || !br.marks.last())
br.created = revnum;` then append the pair. -/
def replayRecordUpdate (br : Branch) (revnum mark : Int) : Branch :=
  let br1 :=
    if br.created = 0 ∨ mark = 0 ∨ br.marks.isEmpty ∨ br.marks.getLastD 0 = 0
    then { br with created := revnum } else br
  { br1 with commits := br1.commits ++ [revnum], marks := br1.marks ++ [mark] }

/-- One appending operation on a branch record, tagged by which source
function performed it. -/
inductive BranchOp
  | resetOp (revnum mark : Int)
  | commitOp (revnum mark : Int)
  | replayOp (revnum mark : Int)
deriving Repr, DecidableEq

/-- The SVN revision an operation appends. -/
def BranchOp.rev : BranchOp → Int
  | resetOp r _ => r
  | commitOp r _ => r
  | replayOp r _ => r

/-- The mark an operation appends. -/
def BranchOp.mrk : BranchOp → Int
  | resetOp _ m => m
  | commitOp _ m => m
  | replayOp _ m => m

/-- Apply one appending operation via its source model. -/
def applyBranchOp (br : Branch) : BranchOp → Branch
  | .resetOp r m => resetBranchRecord br r m
  | .commitOp r m => (txnCommitBranch br r m false).2.2
  | .replayOp r m => replayRecordUpdate br r m

/-- Apply a sequence of appending operations. -/
def applyBranchOps (br : Branch) (ops : List BranchOp) : Branch :=
  ops.foldl applyBranchOp br

/-! ### Pending reset buffers (repository.cpp lines 396-481) -/

/-- The per-repository state touched by `resetBranch` / `deleteBranch` and
flushed by `Repository::commit`.  `output` is the byte stream written to the
`git fast-import` child, one buffer per write. -/
structure RepoState where
  branches : List (String × Branch)
  resetBranches : List (String × String)
  deletedBranches : List (String × String)
  output : List String
deriving Repr, DecidableEq

/-- The 40-ASCII-zero null sha used by `deleteBranch` (line 404). -/
def nullSha : String := String.mk (List.replicate 40 '0')

/-- `Repository::resetBranch` (lines 408-466), minus the submodule
notification hook (line 924-926, an empty body).  Computes the optional
backup command from the pre-update record, updates the record, and stores the
reset payload in `deletedBranches` or `resetBranches` with the
create-then-delete collapse on the `"delete"` comment. -/
def resetBranchModel (st : RepoState) (branch : String) (revnum mark : Int)
    (resetTo comment : String) : RepoState :=
  let br := (alookup st.branches branch).getD defaultBranch
  let backupCmd :=
    if br.created ≠ 0 ∧ br.created ≠ revnum ∧ br.marks ≠ [] ∧
        br.marks.getLastD 0 ≠ 0 then
      let backupBranch :=
        if comment = "delete" ∧ branch.startsWith ("refs/heads/") then
          "refs/tags/backups/" ++ branch.drop 11 ++ "@" ++ toString revnum
        else
          "refs/backups/r" ++ toString revnum ++ branch.drop 4
      "reset " ++ backupBranch ++ "\nfrom " ++ branch ++ "\n\n"
    else ""
  let br' := resetBranchRecord br revnum mark
  let cmd := "reset " ++ branch ++ "\nfrom " ++ resetTo ++ "\n\n" ++
    "progress SVN r" ++ toString revnum ++ " branch " ++ branch ++ " = :" ++
    toString mark ++ " # " ++ comment ++ "\n\n"
  let st1 := { st with branches := aset st.branches branch br' }
  if comment = "delete" then
    if containsKey st1.resetBranches branch then
      { st1 with resetBranches := aremove st1.resetBranches branch }
    else
      { st1 with deletedBranches :=
          aappend st1.deletedBranches branch (backupCmd ++ cmd) }
  else
    { st1 with resetBranches :=
        aappend st1.resetBranches branch (backupCmd ++ cmd) }

/-- `Repository::deleteBranch` (lines 396-406): deleting
`refs/heads/master` is a no-op; otherwise reset to the null sha with
comment `"delete"` and mark 0. -/
def deleteBranchModel (st : RepoState) (branch : String) (revnum : Int) :
    RepoState :=
  if branch = "refs/heads/master" then st
  else resetBranchModel st branch revnum 0 nullSha ("delete")

/-- `Repository::commit` (lines 468-481): flush all deletion buffers, then
all reset buffers, then clear both maps.  (The `startFastImport` call only
manages the child process.) -/
def repoCommitModel (st : RepoState) : RepoState :=
  if st.deletedBranches.isEmpty ∧ st.resetBranches.isEmpty then st
  else
    { st with
      output := st.output ++ st.deletedBranches.map Prod.snd ++
        st.resetBranches.map Prod.snd,
      deletedBranches := [],
      resetBranches := [] }

/-! ### Merge-line emission in `Transaction::commit`
(repository.cpp lines 859-895) -/

/-- The literal cvs2svn marker tested at line 863. -/
def cvs2svnNotice : String := "This commit was manufactured by cvs2svn"

/-- The generic merge loop (lines 871-895): emit `merge :<m>` for each staged
merge, skipping the natural parent, warning and stopping once the total
parent count would exceed 16.  `i` is the running parent count (starting at 1
when a natural parent exists).  Returns the emitted lines and whether the
too-many-parents warning fired. -/
def mergeLoop (parentmark : Int) : Int → List Int → List String × Bool
  | _, [] => ([], false)
  | i, m :: ms =>
    if m = parentmark then mergeLoop parentmark i ms
    else if i + 1 > 16 then ([], true)
    else
      let rest := mergeLoop parentmark (i + 1) ms
      (("merge :" ++ toString m ++ "\n") :: rest.1, rest.2)

/-- Merge emission of `Transaction::commit` (lines 859-895).  In the cvs2svn
special case (log contains the notice and more than one merge is staged) the
merges are sorted ascending (`qSort`, modelled by insertion sort) and only
the largest is emitted.  Returns emitted `merge` lines and the warning flag. -/
def emitMergeLines (log : String) (merges : List Int) (parentmark : Int) :
    List String × Bool :=
  if strContains log cvs2svnNotice && decide (1 < merges.length) then
    (["merge :" ++ toString ((List.insertionSort (· ≤ ·) merges).getLastD 0)
        ++ "\n"], false)
  else
    mergeLoop parentmark (if parentmark ≠ 0 then 1 else 0) merges

/-! ### The marks-file scan `lastValidMark` (repository.cpp lines 130-176)

The source reports corruption through `qCritical` and keeps running (the
same file reserves `qFatal` for genuine aborts, e.g. lines 599, 629, 920);
diagnostics are therefore modelled as data alongside the returned mark. -/

/-- The diagnostic channels used by the source: `Log::warn`/`qWarning`,
`qCritical` (report and continue), `qFatal` (abort). -/
inductive Diag
  | warnD
  | criticalD
  | fatalD
deriving Repr, DecidableEq

/-- The mark parsed from one marks-file line (lines 145-152): lines starting
with `:` and containing a space yield `line.mid(1, sp-1).toInt()`, everything
else yields 0. -/
def lineMark (line : List Char) : Int :=
  match line with
  | ':' :: rest =>
    match line.findIdx? (fun c => c == ' ') with
    | some sp => qToInt (rest.take (sp - 1))
    | none => 0
  | _ => 0

/-- The scan loop of `lastValidMark` (lines 139-175) over the remaining
lines, carrying `prev_mark`.  Returns the resulting mark and the diagnostics
emitted: a zero mark ("marks file corrupt?"), a duplicate, or a non-sorted
mark each raise `criticalD` and yield 0; a gap of more than one stops the
scan silently, keeping the previous mark. -/
def lvmLoop : List String → Int → Int × List Diag
  | [], prev => (prev, [])
  | line :: rest, prev =>
    if line.isEmpty then lvmLoop rest prev
    else
      let mark := lineMark line.data
      if mark = 0 then (0, [Diag.criticalD])
      else if mark = prev then (0, [Diag.criticalD])
      else if mark < prev then (0, [Diag.criticalD])
      else if mark > prev + 1 then (prev, [])
      else lvmLoop rest mark

/-- `lastValidMark` (lines 130-176).  `none` models the marks file failing to
open (line 133), which yields 0. -/
def lastValidMark (marksfile : Option (List String)) : Int × List Diag :=
  match marksfile with
  | none => (0, [])
  | some lines => lvmLoop lines 0

/-! ### Progress-line parsing (repository.cpp lines 186, 195-209)

`setupIncremental` reads the log line by line, truncates each line at `#`,
trims it, and matches it exactly against the regular expression
`progress SVN r(\d+) branch (.*) = :(\d+)`.  Files are modelled as lists of
lines; the byte position `pos` saved before each `readLine` corresponds to
the index of the line, and `logfile.resize(pos)` to taking that prefix of
lines. -/

/-- The literal head of the progress pattern, 14 characters. -/
def progressTag : String := "progress SVN r"

/-- The literal between the revision digits and the branch name. -/
def branchTag : String := " branch "

/-- The literal between the branch name and the mark digits, 4 characters. -/
def markTag : String := " = :"

/-- Split `s` as `branch ++ " = :" ++ digits` with the greedy `(.*)`
semantics of the regex: the rightmost occurrence of the marker whose tail is
all digits wins. -/
def findLastSplit : List Char → Option (List Char × List Char)
  | [] => none
  | c :: rest =>
    match findLastSplit rest with
    | some (pre, d) => some (c :: pre, d)
    | none =>
      if startsWithChars (c :: rest) markTag.data then
        let tl := (c :: rest).drop 4
        if isDigits tl then some ([], tl) else none
      else none

/-- Comment stripping, trimming and the exact regex match of one log line,
yielding `(revision, branch, mark)` for progress lines and `none` for
everything else (empty lines and non-matching lines are both skipped by the
scan, lines 202-205). -/
def parseProgress (raw : String) : Option (Int × String × Int) :=
  let line := trimChars (takeUntilHash raw.data)
  if startsWithChars line progressTag.data then
    let rest1 := line.drop 14
    let revDigits := rest1.takeWhile (fun c => c.isDigit)
    if revDigits.isEmpty then none
    else
      let rest2 := rest1.drop revDigits.length
      if startsWithChars rest2 branchTag.data then
        match findLastSplit (rest2.drop 8) with
        | some (br, markDigits) =>
          some (digitsToInt revDigits, String.mk br, digitsToInt markDigits)
        | none => none
      else none
  else none

/-! ### `Repository::setupIncremental` and `Repository::restoreLog`
(repository.cpp lines 178-270) -/

/-- The state `setupIncremental` reads and writes: the branch registry and
`last_commit_mark` of the repository, plus the on-disk marks file, log file
and `<log>.old` backup (`none` = the file does not exist). -/
structure IncRepo where
  branches : List (String × Branch)
  last_commit_mark : Int
  marksfile : Option (List String)
  logfile : Option (List String)
  bkup : Option (List String)
deriving Repr, DecidableEq

/-- The replay of one accepted progress line (lines 230-237): raise
`last_commit_mark` to the mark and append the pair to the branch record,
inserting a fresh record for an unknown branch (`branches[branch]`). -/
def replayLine (st : IncRepo) (revnum : Int) (branch : String) (mark : Int) :
    IncRepo :=
  let lcm := if st.last_commit_mark < mark then mark else st.last_commit_mark
  let br := (alookup st.branches branch).getD defaultBranch
  { st with last_commit_mark := lcm,
            branches := aset st.branches branch
              (replayRecordUpdate br revnum mark) }

/-- Outcome of the scan loop: a clean end of file carrying the final
`last_revnum`, or a stop at line index `pos` carrying the (possibly rewound)
cutoff. -/
inductive ScanOut
  | clean (last_revnum : Int) (st : IncRepo)
  | trunc (pos : Nat) (cutoff : Int) (st : IncRepo)
deriving Repr, DecidableEq

/-- The scan loop of `setupIncremental` (lines 195-238) over the remaining
lines.  `idx` is the index of the current line (the saved `pos`),
`last_revnum` the last accepted revision.  A progress line with
`revnum >= cutoff` stops with the caller's cutoff; one with
`mark > last_valid_mark` stops with the cutoff rewound to its revision
(lines 211-226); anything else is replayed.  (The non-monotonic-revision
check at lines 214-218 only emits a warning and changes no state, so it is
not modelled.) -/
def scanLines (lvm cutoff : Int) :
    List String → Nat → Int → IncRepo → ScanOut
  | [], _, last_revnum, st => .clean last_revnum st
  | line :: rest, idx, last_revnum, st =>
    match parseProgress line with
    | none => scanLines lvm cutoff rest (idx + 1) last_revnum st
    | some (revnum, branch, mark) =>
      if revnum ≥ cutoff then .trunc idx cutoff st
      else if mark > lvm then .trunc idx revnum st
      else scanLines lvm cutoff rest (idx + 1) revnum
        (replayLine st revnum branch mark)

/-- `Repository::setupIncremental` (lines 178-260).  Returns
`(retval, cutoff, state)`: 1 if no log file exists; on a clean scan
`last_revnum + 1` (removing a stale backup if that equals the cutoff,
lines 240-248); on a stop, back up the whole log, truncate it at the start
of the stopping line, and return the cutoff (lines 250-259). -/
def setupIncremental (cutoff : Int) (st : IncRepo) : Int × Int × IncRepo :=
  match st.logfile with
  | none => (1, cutoff, st)
  | some lines =>
    match scanLines (lastValidMark st.marksfile).1 cutoff lines 0 0 st with
    | .clean last_revnum st1 =>
      let retval := last_revnum + 1
      if retval = cutoff then (retval, cutoff, { st1 with bkup := none })
      else (retval, cutoff, st1)
    | .trunc pos cutoff1 st1 =>
      (cutoff1, cutoff1,
       { st1 with bkup := some lines, logfile := some (lines.take pos) })

/-- `Repository::restoreLog` (lines 262-270): if `<log>.old` exists, rename
it back over the log; otherwise do nothing. -/
def restoreLog (st : IncRepo) : IncRepo :=
  match st.bkup with
  | none => st
  | some content => { st with logfile := some content, bkup := none }

/-- Does a line stop the scan under the given last valid mark and cutoff? -/
def lineTriggers (lvm cutoff : Int) (line : String) : Bool :=
  match parseProgress line with
  | none => false
  | some (r, _, m) => decide (r ≥ cutoff) || decide (m > lvm)

/-- The `last_revnum` after scanning lines none of which stops the scan,
starting from `r0`: each progress line overwrites it. -/
def lastRevFold (r0 : Int) (lines : List String) : Int :=
  lines.foldl
    (fun acc l => match parseProgress l with
      | some (r, _, _) => r
      | none => acc) r0

/-- The final `last_revnum` of a clean scan of a whole log (initial value
0, repository.cpp line 190). -/
def lastRevOf (lines : List String) : Int :=
  lastRevFold 0 lines

/-! ### Concrete states used by witnesses -/

/-- A repository with no pending buffers and no output. -/
def repoState0 : RepoState :=
  { branches := [], resetBranches := [], deletedBranches := [], output := [] }

/-- The state of scenario S4: marks file valid up to `:7`, log claiming
revision 3 at mark 5 and then revision 4 at mark 9. -/
def s4State : IncRepo :=
  { branches := [],
    last_commit_mark := 0,
    marksfile := some [":1 a", ":2 b", ":3 c", ":4 d", ":5 e", ":6 f", ":7 g"],
    logfile := some ["progress SVN r3 branch refs/heads/master = :5",
                     "progress SVN r4 branch refs/heads/master = :9"],
    bkup := none }

/-- A state whose marks file holds a duplicated mark. -/
def dupMarksState : IncRepo :=
  { branches := [],
    last_commit_mark := 0,
    marksfile := some [":1 a", ":1 a"],
    logfile := some ["progress SVN r3 branch refs/heads/master = :5"],
    bkup := none }

/-! ## Helper lemmas -/

theorem getLastD_mem_gen {α : Type} (l : List α) (d : α) (h : l ≠ []) :
    l.getLastD d ∈ l := by
  induction l generalizing d with
  | nil => exact absurd rfl h
  | cons a t ih =>
    rw [List.getLastD_cons]
    cases t with
    | nil => simp [List.getLastD]
    | cons b u => exact List.mem_cons_of_mem a (ih a (by simp))

theorem getLastD_swap {α : Type} (l : List α) (d1 d2 : α) (h : l ≠ []) :
    l.getLastD d1 = l.getLastD d2 := by
  cases l with
  | nil => exact absurd rfl h
  | cons a t => rw [List.getLastD_cons, List.getLastD_cons]

theorem getLastD_eq_getD (l : List Int) (h : l ≠ []) :
    l.getLastD 0 = l.getD (l.length - 1) 0 := by
  induction l with
  | nil => exact absurd rfl h
  | cons a t ih =>
    cases ht : t with
    | nil => subst ht; rfl
    | cons b u =>
      subst ht
      rw [List.getLastD_cons, getLastD_swap (b :: u) a 0 (by simp),
        ih (by simp)]
      have hl : (a :: b :: u).length - 1 = ((b :: u).length - 1) + 1 := by
        simp [List.length_cons]
      rw [hl, List.getD_cons_succ]

theorem getD_eq_get (l : List Int) (i : Nat) (h : i < l.length) :
    l.getD i 0 = l.get ⟨i, h⟩ := by
  simp [List.getD, List.getElem?_eq_getElem h, List.get_eq_getElem]

theorem isEmpty_false_of_ne_nil {α : Type} (l : List α) (h : l ≠ []) :
    l.isEmpty = false := by
  cases l with
  | nil => exact absurd rfl h
  | cons a t => rfl

theorem qUpperBound_cons (a : Int) (t : List Int) (q : Int) :
    qUpperBound (a :: t) q = qUpperBound t q + if a ≤ q then 1 else 0 := by
  simp [qUpperBound, List.countP_cons]

theorem qUpperBound_le_length (l : List Int) (q : Int) :
    qUpperBound l q ≤ l.length :=
  List.countP_le_length _

theorem get_le_iff_lt_qUpperBound (l : List Int) (q : Int)
    (hs : List.Pairwise (· < ·) l) :
    ∀ i, ∀ h : i < l.length, (l.get ⟨i, h⟩ ≤ q ↔ i < qUpperBound l q) := by
  induction l with
  | nil => intro i h; exact absurd h (Nat.not_lt_zero i)
  | cons a t ih =>
    intro i h
    rw [qUpperBound_cons]
    by_cases ha : a ≤ q
    · rw [if_pos ha]
      cases i with
      | zero =>
        simp only [List.get]
        exact iff_of_true ha (Nat.succ_pos _)
      | succ j =>
        have hj : j < t.length := Nat.lt_of_succ_lt_succ (by simpa using h)
        have hiff := ih (List.Pairwise.of_cons hs) j hj
        have hget : (a :: t).get ⟨j + 1, h⟩ = t.get ⟨j, hj⟩ := rfl
        rw [hget, hiff]
        omega
    · rw [if_neg ha]
      have hzero : qUpperBound t q = 0 := by
        simp only [qUpperBound]
        rw [List.countP_eq_zero]
        intro x hx
        have hax : a < x := List.rel_of_pairwise_cons hs hx
        simp only [decide_eq_true_eq]
        omega
      rw [hzero]
      constructor
      · intro hle
        exfalso
        cases i with
        | zero => exact ha (by simpa using hle)
        | succ j =>
          have hj : j < t.length := Nat.lt_of_succ_lt_succ (by simpa using h)
          have hget : (a :: t).get ⟨j + 1, h⟩ = t.get ⟨j, hj⟩ := rfl
          have hmem : t.get ⟨j, hj⟩ ∈ t := List.get_mem t j hj
          have hax : a < t.get ⟨j, hj⟩ := List.rel_of_pairwise_cons hs hmem
          rw [hget] at hle
          omega
      · intro h0
        exact absurd h0 (by omega)

theorem pairwise_le_getLastD (l : List Int) (d : Int)
    (hs : List.Pairwise (· ≤ ·) l) : ∀ x ∈ l, x ≤ l.getLastD d := by
  induction l generalizing d with
  | nil => intro x hx; cases hx
  | cons a t ih =>
    intro x hx
    rw [List.getLastD_cons]
    rcases List.mem_cons.mp hx with rfl | hxt
    · cases ht : t with
      | nil => simp [List.getLastD]
      | cons b u =>
        have hmem : t.getLastD x ∈ t := by
          rw [ht]; exact getLastD_mem_gen (b :: u) x (by simp)
        rw [← ht]
        exact List.rel_of_pairwise_cons hs hmem
    · exact ih a (List.Pairwise.of_cons hs) x hxt

theorem markFromBranch_eq_search (br : Branch) (q : Int)
    (h0 : br.created ≠ 0) (hne : br.commits ≠ [])
    (hq : q ≠ br.commits.getLastD 0) :
    markFromBranch br q =
      (if qUpperBound br.commits q = 0 then 0
       else br.marks.getD (qUpperBound br.commits q - 1) 0) := by
  rw [markFromBranch, if_neg h0,
    if_neg (by rw [isEmpty_false_of_ne_nil br.commits hne]; simp),
    if_neg hq]

theorem iterBlob_run (n : Nat) (next t : Int) (h : (n : Int) < next - 1) :
    iterBlob n
      { last_commit_mark := 0, next_file_mark := next,
        outstandingTransactions := t } =
      some { last_commit_mark := 0, next_file_mark := next - n,
             outstandingTransactions := t } := by
  induction n generalizing next with
  | zero => simp [iterBlob]
  | succ m ih =>
    have hcast : ((m + 1 : Nat) : Int) = (m : Int) + 1 := by push_cast; ring
    rw [hcast] at h
    have hstep : addFileMark
        { last_commit_mark := 0, next_file_mark := next,
          outstandingTransactions := t } =
        some (next,
          { last_commit_mark := 0, next_file_mark := next - 1,
            outstandingTransactions := t }) := by
      simp only [addFileMark]
      rw [if_pos (by omega : next > 0 + 1)]
    rw [iterBlob, hstep]
    have hrec := ih (next - 1) (by omega)
    have heq : next - 1 - (m : Int) = next - ((m + 1 : Nat) : Int) := by
      push_cast; ring
    rw [heq] at hrec
    exact hrec

/-! ## Claim theorems -/

/-- Claim C1: `markFrom` returns the mark of the latest commit on the source
branch with revision at most the probe: with commits `r₁ < … < rₙ` and
parallel marks, for `q ≥ r₁` it returns the mark at the greatest index whose
revision is ≤ `q`; for `q < r₁` it returns 0; for a source that is unknown,
never created, or has an empty commit list it returns −1; and when `q`
equals the last recorded commit it returns the last mark. -/
theorem markFrom_spec (br : Branch) (q : Int)
    (hsort : List.Pairwise (· < ·) br.commits)
    (hlen : br.commits.length = br.marks.length) :
    ((br.created = 0 ∨ br.commits = []) → markFromBranch br q = -1) ∧
    (br.created ≠ 0 → ∀ r rs, br.commits = r :: rs → q < r →
      markFromBranch br q = 0) ∧
    (br.created ≠ 0 → ∀ r rs, br.commits = r :: rs → r ≤ q →
      ∃ k, ∃ hk : k < br.commits.length,
        br.commits.get ⟨k, hk⟩ ≤ q ∧
        (∀ j, ∀ hj : j < br.commits.length,
          br.commits.get ⟨j, hj⟩ ≤ q → j ≤ k) ∧
        markFromBranch br q = br.marks.getD k 0) ∧
    (br.created ≠ 0 → br.commits ≠ [] → q = br.commits.getLastD 0 →
      markFromBranch br q = br.marks.getLastD 0) ∧
    (∀ bs R, alookup bs R = none → (markFromRepo bs R q).1 = -1) := by
  refine ⟨?_, ?_, ?_, ?_, ?_⟩
  · intro hor
    by_cases h0 : br.created = 0
    · rw [markFromBranch, if_pos h0]
    · rcases hor with h | h
      · exact absurd h h0
      · rw [markFromBranch, if_neg h0, if_pos (by rw [h]; rfl)]
  · intro h0 r rs hc hq
    have hne : br.commits ≠ [] := by rw [hc]; simp
    have hrlast : r ≤ br.commits.getLastD 0 := by
      have hmem := getLastD_mem_gen br.commits 0 hne
      rw [hc] at hmem
      rw [hc]
      rcases List.mem_cons.mp hmem with he | ht
      · rw [he]
      · exact le_of_lt (List.rel_of_pairwise_cons (hc ▸ hsort) ht)
    have hqlast : q ≠ br.commits.getLastD 0 := by omega
    rw [markFromBranch_eq_search br q h0 hne hqlast]
    have hub : qUpperBound br.commits q = 0 := by
      simp only [qUpperBound]
      rw [List.countP_eq_zero]
      intro x hx
      rw [hc] at hx
      simp only [decide_eq_true_eq]
      rcases List.mem_cons.mp hx with rfl | hxt
      · omega
      · have := List.rel_of_pairwise_cons (hc ▸ hsort) hxt
        omega
    rw [if_pos hub]
  · intro h0 r rs hc hrq
    have hne : br.commits ≠ [] := by rw [hc]; simp
    have hlenpos : 0 < br.commits.length := List.length_pos.mpr hne
    have hmarksne : br.marks ≠ [] :=
      List.length_pos.mp (by omega)
    by_cases hq : q = br.commits.getLastD 0
    · refine ⟨br.commits.length - 1, by omega, ?_, by omega, ?_⟩
      · rw [← getD_eq_get br.commits (br.commits.length - 1) (by omega),
          ← getLastD_eq_getD br.commits hne, ← hq]
      · rw [markFromBranch, if_neg h0,
          if_neg (by rw [isEmpty_false_of_ne_nil br.commits hne]; simp),
          if_pos hq, getLastD_eq_getD br.marks hmarksne, hlen]
    · have hub1 : 0 < qUpperBound br.commits q := by
        have h0lt : (0 : Nat) < br.commits.length := hlenpos
        have hget0 : br.commits.get ⟨0, h0lt⟩ = r := by
          rw [← getD_eq_get br.commits 0 h0lt, hc]
          rfl
        have := (get_le_iff_lt_qUpperBound br.commits q hsort 0 h0lt).mp
          (by rw [hget0]; exact hrq)
        omega
      have huble := qUpperBound_le_length br.commits q
      refine ⟨qUpperBound br.commits q - 1, by omega, ?_, ?_, ?_⟩
      · exact (get_le_iff_lt_qUpperBound br.commits q hsort _ (by omega)).mpr
          (by omega)
      · intro j hj hjle
        have := (get_le_iff_lt_qUpperBound br.commits q hsort j hj).mp hjle
        omega
      · rw [markFromBranch_eq_search br q h0 hne hq, if_neg (by omega)]
  · intro h0 hne hq
    rw [markFromBranch, if_neg h0,
      if_neg (by rw [isEmpty_false_of_ne_nil br.commits hne]; simp),
      if_pos hq]
  · intro bs R h
    simp [markFromRepo, h, markFromBranch, defaultBranch]

/-- Witness for C1 at a concrete branch record: on commits `[2, 5, 9]` with
marks `[10, 20, 30]`, a probe below the first commit yields 0 and a probe
equal to the last commit yields the last mark. -/
theorem markFrom_spec_witness :
    markFromBranch
      { created := 1, commits := [2, 5, 9], marks := [10, 20, 30],
        note := "" } 1 = 0 ∧
    markFromBranch
      { created := 1, commits := [2, 5, 9], marks := [10, 20, 30],
        note := "" } 9 = 30 := by
  constructor
  · exact (markFrom_spec
      { created := 1, commits := [2, 5, 9], marks := [10, 20, 30],
        note := "" } 1 (by decide) (by decide)).2.1 (by decide) 2 [5, 9]
      rfl (by decide)
  · exact (markFrom_spec
      { created := 1, commits := [2, 5, 9], marks := [10, 20, 30],
        note := "" } 9 (by decide) (by decide)).2.2.2.1 (by decide)
      (by decide) (by decide)

/-- Claim C2 (amended): a commit-mark allocation either aborts or leaves
`last_commit_mark + 1 < next_file_mark`; a blob-mark allocation either
aborts or leaves the non-strict `last_commit_mark + 1 ≤ next_file_mark`
(after a successful blob allocation the two counters may touch), while the
allocated blob mark itself always exceeds `last_commit_mark + 1` and hence
differs from every commit mark allocated so far; and when the
outstanding-transaction count drops to zero, `next_file_mark` is reset to
`MAX_MARK = 2^20 - 2`. -/
theorem mark_alloc_inv :
    (∀ s m s', allocCommitMark s = some (m, s') →
      s'.last_commit_mark + 1 < s'.next_file_mark ∧
      m = s'.last_commit_mark) ∧
    (∀ s m s', addFileMark s = some (m, s') →
      s'.last_commit_mark + 1 ≤ s'.next_file_mark ∧
      s'.last_commit_mark + 1 < m ∧
      (∀ c, c ≤ s.last_commit_mark → c ≠ m)) ∧
    (∀ s, s.outstandingTransactions = 1 →
      (forgetTransactionMarks s).next_file_mark = maxMark ∧
      (forgetTransactionMarks s).outstandingTransactions = 0) := by
  refine ⟨?_, ?_, ?_⟩
  · intro s m s' h
    simp only [allocCommitMark] at h
    by_cases hc : s.last_commit_mark + 1 < s.next_file_mark - 1
    · rw [if_pos hc] at h
      simp only [Option.some.injEq, Prod.mk.injEq] at h
      obtain ⟨hm, hs⟩ := h
      subst hs
      simp only
      omega
    · rw [if_neg hc] at h
      exact absurd h (by simp)
  · intro s m s' h
    simp only [addFileMark] at h
    by_cases hc : s.next_file_mark > s.last_commit_mark + 1
    · rw [if_pos hc] at h
      simp only [Option.some.injEq, Prod.mk.injEq] at h
      obtain ⟨hm, hs⟩ := h
      subst hs
      subst hm
      simp only
      refine ⟨by omega, by omega, ?_⟩
      intro c hcle
      omega
    · rw [if_neg hc] at h
      exact absurd h (by simp)
  · intro s h1
    simp only [forgetTransactionMarks, h1]
    norm_num

/-- Witness for C2 (amended) at a concrete allocation: from the state
`(last_commit_mark, next_file_mark) = (0, 5)` a commit-mark allocation
succeeds and re-establishes the strict separation. -/
theorem mark_alloc_inv_witness :
    ({ last_commit_mark := 1, next_file_mark := 5,
       outstandingTransactions := 1 } : MarkState).last_commit_mark + 1 <
    ({ last_commit_mark := 1, next_file_mark := 5,
       outstandingTransactions := 1 } : MarkState).next_file_mark := by
  exact (mark_alloc_inv.1
    { last_commit_mark := 0, next_file_mark := 5,
      outstandingTransactions := 1 } 1
    { last_commit_mark := 1, next_file_mark := 5,
      outstandingTransactions := 1 } (by decide)).1

/-- Counterexample to C2 as stated: from the construction state
`(last_commit_mark, next_file_mark) = (0, maxMark)` with one open
transaction, 1048572 successful `addFile` blob allocations reach
`next_file_mark = 2`, and the next `addFile` also succeeds (no abort) while
leaving `last_commit_mark + 1 = next_file_mark = 1`, so a blob-mark
allocation can violate the strict invariant without aborting. -/
theorem mark_alloc_strict_cex :
    iterBlob 1048572
      { last_commit_mark := 0, next_file_mark := maxMark,
        outstandingTransactions := 1 } =
      some { last_commit_mark := 0, next_file_mark := 2,
             outstandingTransactions := 1 } ∧
    addFileMark
      { last_commit_mark := 0, next_file_mark := 2,
        outstandingTransactions := 1 } =
      some (2, { last_commit_mark := 0, next_file_mark := 1,
                 outstandingTransactions := 1 }) ∧
    ¬ (({ last_commit_mark := 0, next_file_mark := 1,
          outstandingTransactions := 1 } : MarkState).last_commit_mark + 1 <
       ({ last_commit_mark := 0, next_file_mark := 1,
          outstandingTransactions := 1 } : MarkState).next_file_mark) := by
  refine ⟨?_, by decide, by decide⟩
  have h := iterBlob_run 1048572 maxMark 1 (by norm_num [maxMark])
  have heq : maxMark - ((1048572 : Nat) : Int) = 2 := by
    norm_num [maxMark]
  rw [heq] at h
  exact h

theorem applyBranchOp_append (br : Branch) (op : BranchOp) :
    (applyBranchOp br op).commits = br.commits ++ [op.rev] ∧
    (applyBranchOp br op).marks = br.marks ++ [op.mrk] := by
  cases op with
  | resetOp r m =>
    simp [applyBranchOp, resetBranchRecord, BranchOp.rev, BranchOp.mrk]
  | commitOp r m =>
    simp only [applyBranchOp, txnCommitBranch]
    split <;> simp [BranchOp.rev, BranchOp.mrk]
  | replayOp r m =>
    simp only [applyBranchOp, replayRecordUpdate]
    split <;> simp [BranchOp.rev, BranchOp.mrk]

theorem applyBranchOps_append (br : Branch) (ops : List BranchOp) :
    (applyBranchOps br ops).commits = br.commits ++ ops.map BranchOp.rev ∧
    (applyBranchOps br ops).marks = br.marks ++ ops.map BranchOp.mrk := by
  induction ops generalizing br with
  | nil => simp [applyBranchOps]
  | cons op rest ih =>
    simp only [applyBranchOps, List.foldl_cons, List.map_cons]
    have h1 := applyBranchOp_append br op
    have h2 := ih (applyBranchOp br op)
    simp only [applyBranchOps] at h2
    constructor
    · rw [h2.1, h1.1]; simp
    · rw [h2.2, h1.2]; simp

/-- Claim C3 (amended): every appending operation (`resetBranch` via
`createBranch`/`deleteBranch`, `Transaction::commit`, `setupIncremental`
replay) appends exactly one revision/mark pair, so `|commits| == |marks|`
is preserved, and the commits sequence after any such sequence of
operations is the old sequence extended by the operations' revisions: it is
ascending, but only non-strictly, whenever the appended revisions arrive in
non-decreasing order starting no lower than the recorded tail (same-revision
operations, e.g. a delete and a re-create in one SVN revision, produce equal
adjacent entries). -/
theorem branch_record_inv (br : Branch) (ops : List BranchOp)
    (hchain : List.Chain' (· ≤ ·) (br.commits ++ ops.map BranchOp.rev))
    (hlen : br.commits.length = br.marks.length) :
    (applyBranchOps br ops).commits = br.commits ++ ops.map BranchOp.rev ∧
    List.Chain' (· ≤ ·) (applyBranchOps br ops).commits ∧
    (applyBranchOps br ops).commits.length =
      (applyBranchOps br ops).marks.length := by
  have h := applyBranchOps_append br ops
  refine ⟨h.1, by rw [h.1]; exact hchain, ?_⟩
  rw [h.1, h.2]
  simp [hlen]

/-- Witness for C3 (amended): re-creating a branch in the same revision 5
that deleted it appends `[5, 5]`, which keeps the record non-decreasing and
the two arrays of equal length. -/
theorem branch_record_inv_witness :
    (applyBranchOps { created := 1, commits := [1], marks := [1], note := "" }
      [BranchOp.resetOp 5 0, BranchOp.resetOp 5 7]).commits =
        [1] ++ [5, 5] ∧
    List.Chain' (· ≤ ·)
      (applyBranchOps { created := 1, commits := [1], marks := [1], note := "" }
        [BranchOp.resetOp 5 0, BranchOp.resetOp 5 7]).commits ∧
    (applyBranchOps { created := 1, commits := [1], marks := [1], note := "" }
      [BranchOp.resetOp 5 0, BranchOp.resetOp 5 7]).commits.length =
    (applyBranchOps { created := 1, commits := [1], marks := [1], note := "" }
      [BranchOp.resetOp 5 0, BranchOp.resetOp 5 7]).marks.length := by
  exact branch_record_inv
    { created := 1, commits := [1], marks := [1], note := "" }
    [BranchOp.resetOp 5 0, BranchOp.resetOp 5 7]
    (by norm_num [List.chain'_cons, BranchOp.rev]) (by decide)

/-- Counterexample to C3 as stated: deleting `refs/heads/topic` at revision
5 and re-creating it in the same revision (scenario S3 of the spec) calls
`resetBranch` twice with `revnum = 5`, appending revision 5 twice, so the
commits sequence `[1, 5, 5]` is not strictly ascending. -/
theorem branch_record_strict_cex :
    (applyBranchOps { created := 1, commits := [1], marks := [1], note := "" }
      [BranchOp.resetOp 5 0, BranchOp.resetOp 5 7]).commits = [1, 5, 5] ∧
    ¬ List.Chain' (· < ·)
      (applyBranchOps { created := 1, commits := [1], marks := [1], note := "" }
        [BranchOp.resetOp 5 0, BranchOp.resetOp 5 7]).commits := by
  refine ⟨rfl, ?_⟩
  intro hch
  rw [show (applyBranchOps
      { created := 1, commits := [1], marks := [1], note := "" }
      [BranchOp.resetOp 5 0, BranchOp.resetOp 5 7]).commits =
      [1, 5, 5] from rfl] at hch
  rcases List.chain'_cons.mp hch with ⟨_, h2⟩
  rcases List.chain'_cons.mp h2 with ⟨h55, _⟩
  exact absurd h55 (by norm_num)

theorem eq_nil_of_isEmpty {α : Type} (l : List α) (h : l.isEmpty = true) :
    l = [] := by
  cases l with
  | nil => rfl
  | cons a t => exact absurd h (by simp)

theorem containsKey_aappend_self (m : List (String × String)) (k v : String) :
    containsKey (aappend m k v) k = true := by
  induction m with
  | nil => simp [aappend, containsKey, alookup]
  | cons p rest ih =>
    obtain ⟨k', v'⟩ := p
    by_cases h : k' = k
    · simp [aappend, if_pos h, containsKey, alookup]
    · simp only [aappend, if_neg h, containsKey, alookup]
      simpa [containsKey] using ih

theorem aremove_aappend (m : List (String × String)) (k v : String)
    (h : containsKey m k = false) :
    aremove (aappend m k v) k = m := by
  induction m with
  | nil => simp [aappend, aremove]
  | cons p rest ih =>
    obtain ⟨k', v'⟩ := p
    by_cases hk : k' = k
    · exfalso
      simp [containsKey, alookup, if_pos hk] at h
    · have hrest : containsKey rest k = false := by
        simpa [containsKey, alookup, if_neg hk] using h
      simp [aappend, if_neg hk, aremove, ih hrest]

theorem alookup_aappend_isSome (m : List (String × String)) (k v : String) :
    (alookup (aappend m k v) k).isSome = true :=
  containsKey_aappend_self m k v

theorem resetBranchModel_nondelete (st : RepoState) (b : String)
    (rev mark : Int) (target cmt : String) (hcmt : cmt ≠ "delete") :
    ∃ payload,
      (resetBranchModel st b rev mark target cmt).resetBranches =
        aappend st.resetBranches b payload ∧
      (resetBranchModel st b rev mark target cmt).deletedBranches =
        st.deletedBranches ∧
      (resetBranchModel st b rev mark target cmt).output = st.output := by
  simp only [resetBranchModel]
  rw [if_neg hcmt]
  exact ⟨_, rfl, rfl, rfl⟩

theorem resetBranchModel_delete_contained (st : RepoState) (b : String)
    (rev mark : Int) (target : String)
    (hin : containsKey st.resetBranches b = true) :
    (resetBranchModel st b rev mark target ("delete")).resetBranches =
      aremove st.resetBranches b ∧
    (resetBranchModel st b rev mark target ("delete")).deletedBranches =
      st.deletedBranches ∧
    (resetBranchModel st b rev mark target ("delete")).output = st.output := by
  simp only [resetBranchModel, if_true]
  rw [if_pos hin]
  exact ⟨rfl, rfl, rfl⟩

theorem resetBranchModel_delete_free (st : RepoState) (b : String)
    (rev mark : Int) (target : String)
    (hnotin : containsKey st.resetBranches b = false) :
    ∃ payload,
      (resetBranchModel st b rev mark target ("delete")).deletedBranches =
        aappend st.deletedBranches b payload ∧
      (resetBranchModel st b rev mark target ("delete")).resetBranches =
        st.resetBranches ∧
      (resetBranchModel st b rev mark target ("delete")).output = st.output := by
  simp only [resetBranchModel, if_true]
  rw [if_neg (by rw [hnotin]; exact Bool.false_ne_true)]
  exact ⟨_, rfl, rfl, rfl⟩

theorem repoCommitModel_spec (st : RepoState) :
    (repoCommitModel st).output =
      st.output ++ st.deletedBranches.map Prod.snd ++
        st.resetBranches.map Prod.snd ∧
    (repoCommitModel st).deletedBranches = [] ∧
    (repoCommitModel st).resetBranches = [] := by
  by_cases h : st.deletedBranches.isEmpty = true ∧
      st.resetBranches.isEmpty = true
  · obtain ⟨h1, h2⟩ := h
    have e1 := eq_nil_of_isEmpty st.deletedBranches h1
    have e2 := eq_nil_of_isEmpty st.resetBranches h2
    simp [repoCommitModel, e1, e2]
  · simp only [repoCommitModel]
    rw [if_neg h]
    exact ⟨rfl, rfl, rfl⟩

/-- Claim C5: within one SVN revision, a ref that is first reset (created)
and later deleted drops from both pending maps and contributes no
fast-import output at flush; a ref that is deleted and later reset keeps its
tombstone in `deletedBranches` while the reset is recorded in
`resetBranches`; and the flush (`Repository::commit`) writes all deletion
buffers before all reset buffers and clears both maps. -/
theorem pending_reset_collapse :
    (∀ st b rev mark target cmt rev' mark' target',
      cmt ≠ "delete" → containsKey st.resetBranches b = false →
      (resetBranchModel (resetBranchModel st b rev mark target cmt) b rev'
          mark' target' ("delete")).resetBranches = st.resetBranches ∧
      (resetBranchModel (resetBranchModel st b rev mark target cmt) b rev'
          mark' target' ("delete")).deletedBranches = st.deletedBranches ∧
      (repoCommitModel (resetBranchModel (resetBranchModel st b rev mark
          target cmt) b rev' mark' target' ("delete"))).output =
        (repoCommitModel st).output) ∧
    (∀ st b rev mark target cmt rev' mark' target',
      cmt ≠ "delete" → containsKey st.resetBranches b = false →
      (alookup (resetBranchModel (resetBranchModel st b rev' mark' target'
          ("delete")) b rev mark target cmt).deletedBranches b).isSome =
        true ∧
      (resetBranchModel (resetBranchModel st b rev' mark' target'
          ("delete")) b rev mark target cmt).deletedBranches =
        (resetBranchModel st b rev' mark' target'
          ("delete")).deletedBranches ∧
      (alookup (resetBranchModel (resetBranchModel st b rev' mark' target'
          ("delete")) b rev mark target cmt).resetBranches b).isSome =
        true) ∧
    (∀ st, (repoCommitModel st).output =
        st.output ++ st.deletedBranches.map Prod.snd ++
          st.resetBranches.map Prod.snd ∧
      (repoCommitModel st).deletedBranches = [] ∧
      (repoCommitModel st).resetBranches = []) := by
  refine ⟨?_, ?_, repoCommitModel_spec⟩
  · intro st b rev mark target cmt rev' mark' target' hcmt hfree
    obtain ⟨p1, h1r, h1d, h1o⟩ :=
      resetBranchModel_nondelete st b rev mark target cmt hcmt
    set st1 := resetBranchModel st b rev mark target cmt with hst1
    obtain ⟨h2r, h2d, h2o⟩ :=
      resetBranchModel_delete_contained st1 b rev' mark' target'
        (by rw [h1r]; exact containsKey_aappend_self _ _ _)
    have hres : (resetBranchModel st1 b rev' mark' target'
        ("delete")).resetBranches = st.resetBranches := by
      rw [h2r, h1r]
      exact aremove_aappend st.resetBranches b p1 hfree
    have hdel : (resetBranchModel st1 b rev' mark' target'
        ("delete")).deletedBranches = st.deletedBranches := by
      rw [h2d, h1d]
    refine ⟨hres, hdel, ?_⟩
    have hout : (resetBranchModel st1 b rev' mark' target'
        ("delete")).output = st.output := by
      rw [h2o, h1o]
    rw [(repoCommitModel_spec _).1, (repoCommitModel_spec st).1,
      hres, hdel, hout]
  · intro st b rev mark target cmt rev' mark' target' hcmt hfree
    obtain ⟨p1, h1d, h1r, h1o⟩ :=
      resetBranchModel_delete_free st b rev' mark' target' hfree
    set st1 := resetBranchModel st b rev' mark' target' ("delete") with hst1
    obtain ⟨p2, h2r, h2d, h2o⟩ :=
      resetBranchModel_nondelete st1 b rev mark target cmt hcmt
    refine ⟨?_, h2d, ?_⟩
    · rw [h2d, h1d]
      exact alookup_aappend_isSome _ _ _
    · rw [h2r]
      exact alookup_aappend_isSome _ _ _

/-- Witness for C5 at scenario S3: creating `refs/heads/topic` at revision 5
and deleting it in the same revision leaves both pending maps as they were,
and the flush output is unchanged. -/
theorem pending_reset_collapse_witness :
    (resetBranchModel (resetBranchModel repoState0 ("refs/heads/topic") 5 1
        (":1") ("create")) ("refs/heads/topic") 5 0 nullSha
        ("delete")).resetBranches = repoState0.resetBranches ∧
    (resetBranchModel (resetBranchModel repoState0 ("refs/heads/topic") 5 1
        (":1") ("create")) ("refs/heads/topic") 5 0 nullSha
        ("delete")).deletedBranches = repoState0.deletedBranches ∧
    (repoCommitModel (resetBranchModel (resetBranchModel repoState0
        ("refs/heads/topic") 5 1 (":1") ("create")) ("refs/heads/topic") 5 0
        nullSha ("delete"))).output = (repoCommitModel repoState0).output :=
  pending_reset_collapse.1 repoState0 ("refs/heads/topic") 5 1 (":1")
    ("create") 5 0 nullSha (by decide) (by decide)

/-- Claim C6 (amended): the parent of the commit block emitted by
`Transaction::commit` is the branch's last `marks` entry provided the branch
is created, has marks, and that last entry is non-zero (a live tip);
otherwise — including for a tombstoned branch whose last entry is 0 even
when an earlier non-zero entry exists — the commit has no parent, and a
warning is issued exactly when incremental mode is set. -/
theorem commit_parent_tip (br : Branch) (revnum mark : Int) (inc : Bool) :
    (br.created ≠ 0 → ¬ br.marks.isEmpty → br.marks.getLastD 0 ≠ 0 →
      (txnCommitBranch br revnum mark inc).1 = br.marks.getLastD 0 ∧
      (txnCommitBranch br revnum mark inc).2.1 = false) ∧
    ((br.created = 0 ∨ br.marks.isEmpty ∨ br.marks.getLastD 0 = 0) →
      (txnCommitBranch br revnum mark inc).1 = 0 ∧
      (txnCommitBranch br revnum mark inc).2.1 = inc) := by
  constructor
  · intro h1 h2 h3
    rw [txnCommitBranch, if_pos ⟨h1, h2, h3⟩]
    exact ⟨rfl, rfl⟩
  · intro hor
    have hneg : ¬ (br.created ≠ 0 ∧ ¬ br.marks.isEmpty ∧
        br.marks.getLastD 0 ≠ 0) := by
      rcases hor with h | h | h <;> tauto
    rw [txnCommitBranch, if_neg hneg]
    exact ⟨rfl, rfl⟩

/-- Witness for C6 (amended) at a live branch with marks `[4]`: the parent
is 4 and no warning fires even in incremental mode. -/
theorem commit_parent_tip_witness :
    (txnCommitBranch (⟨3, [1], [4], ""⟩ : Branch) 7 5 true).1 =
      (⟨3, [1], [4], ""⟩ : Branch).marks.getLastD 0 ∧
    (txnCommitBranch (⟨3, [1], [4], ""⟩ : Branch) 7 5 true).2.1 = false :=
  (commit_parent_tip (⟨3, [1], [4], ""⟩ : Branch) 7 5 true).1
    (by decide) (by decide) (by decide)

/-- Counterexample to C6 as stated: for a tombstoned branch with marks
`[3, 0]` a last non-zero entry (3) exists, yet `Transaction::commit` emits
the commit with no parent (parentmark 0), because the source tests only
whether the very last `marks` entry is non-zero, not the last non-zero
entry. -/
theorem commit_parent_nonzero_cex :
    (txnCommitBranch (⟨5, [1, 2], [3, 0], ""⟩ : Branch) 7 4 false).1 = 0 ∧
    (([3, 0] : List Int).filter (fun m => decide (m ≠ 0))).getLastD 0 = 3 ∧
    (3 : Int) ≠ 0 := by
  decide

/-- Claim C7: if the transaction's log contains the literal
`This commit was manufactured by cvs2svn` and more than one merge parent was
staged, `Transaction::commit` sorts the staged merges and emits exactly one
merge line, carrying the single largest staged merge mark, discarding the
others. -/
theorem cvs2svn_single_merge (log : String) (merges : List Int)
    (parentmark : Int) (hsub : strContains log cvs2svnNotice = true)
    (hlen : 1 < merges.length) :
    ∃ M, (emitMergeLines log merges parentmark).1 =
        ["merge :" ++ toString M ++ "\n"] ∧
      M ∈ merges ∧ ∀ x ∈ merges, x ≤ M := by
  have hcond : (strContains log cvs2svnNotice &&
      decide (1 < merges.length)) = true := by
    rw [hsub, decide_eq_true hlen]
    rfl
  refine ⟨(List.insertionSort (· ≤ ·) merges).getLastD 0, ?_, ?_, ?_⟩
  · rw [emitMergeLines, if_pos hcond]
  · have hperm := List.perm_insertionSort (· ≤ ·) merges
    have hne : List.insertionSort (· ≤ ·) merges ≠ [] := by
      intro hnil
      have := hperm.length_eq
      rw [hnil] at this
      simp at this
      omega
    exact hperm.mem_iff.mp
      (getLastD_mem_gen (List.insertionSort (· ≤ ·) merges) 0 hne)
  · intro x hx
    have hsorted : List.Sorted (· ≤ ·)
        (List.insertionSort (· ≤ ·) merges) :=
      List.sorted_insertionSort (· ≤ ·) merges
    have hperm := List.perm_insertionSort (· ≤ ·) merges
    exact pairwise_le_getLastD (List.insertionSort (· ≤ ·) merges) 0
      hsorted x (hperm.mem_iff.mpr hx)

/-- Witness for C7: with staged merge marks `[3, 9, 5]` and a cvs2svn log,
exactly one merge line `merge :9` is emitted. -/
theorem cvs2svn_single_merge_witness :
    (emitMergeLines cvs2svnNotice [3, 9, 5] 0).1 = ["merge :9\n"] := by
  obtain ⟨M, hM, hmem, hub⟩ :=
    cvs2svn_single_merge cvs2svnNotice [3, 9, 5] 0 (by decide) (by decide)
  have h9 := hub 9 (by decide)
  have hM9 : M = 9 := by
    simp at hmem
    rcases hmem with rfl | rfl | rfl
    · omega
    · rfl
    · omega
  rw [hM9] at hM
  exact hM.trans (by decide)

/-- Claim C8 (amended): when the marks-file scan encounters a malformed
line, a duplicate mark, or a non-sorted mark, it emits a critical diagnostic
(`qCritical`) and returns 0 — the whole marks file is treated as holding no
valid mark, which rewinds recovery to the first logged revision; the run is
not aborted (the source reserves `qFatal` for aborts).  Only a gap of more
than one ends the scan silently, making the last valid mark the last mark
seen before the gap. -/
theorem marks_scan_violations :
    (∀ line rest prev, ¬ line.isEmpty → lineMark line.data = 0 →
      lvmLoop (line :: rest) prev = (0, [Diag.criticalD])) ∧
    (∀ line rest prev, ¬ line.isEmpty → lineMark line.data ≠ 0 →
      lineMark line.data = prev →
      lvmLoop (line :: rest) prev = (0, [Diag.criticalD])) ∧
    (∀ line rest prev, ¬ line.isEmpty → lineMark line.data ≠ 0 →
      lineMark line.data < prev →
      lvmLoop (line :: rest) prev = (0, [Diag.criticalD])) ∧
    (∀ line rest prev, ¬ line.isEmpty → lineMark line.data ≠ 0 →
      lineMark line.data > prev + 1 →
      lvmLoop (line :: rest) prev = (prev, [])) := by
  refine ⟨?_, ?_, ?_, ?_⟩
  · intro line rest prev hne h0
    simp only [lvmLoop]
    rw [if_neg hne, if_pos h0]
  · intro line rest prev hne h0 hdup
    simp only [lvmLoop]
    rw [if_neg hne, if_neg h0, if_pos hdup]
  · intro line rest prev hne h0 hlt
    simp only [lvmLoop]
    rw [if_neg hne, if_neg h0, if_neg (by omega), if_pos hlt]
  · intro line rest prev hne h0 hgap
    simp only [lvmLoop]
    rw [if_neg hne, if_neg h0, if_neg (by omega), if_neg (by omega),
      if_pos hgap]

/-- Witness for C8 (amended): a duplicated mark `:1` after `prev_mark = 1`
yields `(0, critical)`, and a gap line `:3` after `prev_mark = 1` ends the
scan with the previous mark and no diagnostic. -/
theorem marks_scan_violations_witness :
    lvmLoop [":1 a"] 1 = (0, [Diag.criticalD]) ∧
    lvmLoop [":3 a"] 1 = (1, []) := by
  constructor
  · exact marks_scan_violations.2.1 (":1 a") [] 1 (by decide) (by decide)
      (by decide)
  · exact marks_scan_violations.2.2.2 (":3 a") [] 1 (by decide) (by decide)
      (by decide)

/-- Counterexample to C8 as stated: a duplicate mark in the marks file does
not fail the run fatally.  `lastValidMark` emits only a critical diagnostic
(not `qFatal`) and returns 0, and `setupIncremental` then proceeds normally,
treating the file like one with no valid marks: it rewinds the cutoff to the
first logged revision (3) and returns it. -/
theorem marks_scan_fatal_cex :
    lastValidMark (some [":1 a", ":1 a"]) = (0, [Diag.criticalD]) ∧
    Diag.criticalD ≠ Diag.fatalD ∧
    setupIncremental 100 dupMarksState =
      (3, 3, { dupMarksState with
               bkup := some ["progress SVN r3 branch refs/heads/master = :5"],
               logfile := some [] }) := by
  refine ⟨by decide, by decide, by decide⟩

theorem scanLines_preserves (lvm cutoff : Int) (L : List String) :
    ∀ (idx : Nat) (r0 : Int) (st : IncRepo),
      (∀ r st1, scanLines lvm cutoff L idx r0 st = .clean r st1 →
        st1.logfile = st.logfile ∧ st1.bkup = st.bkup) ∧
      (∀ p c st1, scanLines lvm cutoff L idx r0 st = .trunc p c st1 →
        st1.logfile = st.logfile ∧ st1.bkup = st.bkup) := by
  induction L with
  | nil =>
    intro idx r0 st
    constructor
    · intro r st1 h
      simp only [scanLines] at h
      cases h
      exact ⟨rfl, rfl⟩
    · intro p c st1 h
      simp only [scanLines] at h
      cases h
  | cons line rest ih =>
    intro idx r0 st
    constructor
    · intro r st1 h
      rcases hp : parseProgress line with _ | ⟨rev, b, m⟩
      · simp only [scanLines, hp] at h
        exact (ih (idx + 1) r0 st).1 r st1 h
      · simp only [scanLines, hp] at h
        by_cases h1 : rev ≥ cutoff
        · rw [if_pos h1] at h; cases h
        · rw [if_neg h1] at h
          by_cases h2 : m > lvm
          · rw [if_pos h2] at h; cases h
          · rw [if_neg h2] at h
            have hr := (ih (idx + 1) rev (replayLine st rev b m)).1 r st1 h
            exact ⟨hr.1.trans rfl, hr.2.trans rfl⟩
    · intro p c st1 h
      rcases hp : parseProgress line with _ | ⟨rev, b, m⟩
      · simp only [scanLines, hp] at h
        exact (ih (idx + 1) r0 st).2 p c st1 h
      · simp only [scanLines, hp] at h
        by_cases h1 : rev ≥ cutoff
        · rw [if_pos h1] at h
          cases h
          exact ⟨rfl, rfl⟩
        · rw [if_neg h1] at h
          by_cases h2 : m > lvm
          · rw [if_pos h2] at h
            cases h
            exact ⟨rfl, rfl⟩
          · rw [if_neg h2] at h
            have hr := (ih (idx + 1) rev (replayLine st rev b m)).2 p c st1 h
            exact ⟨hr.1.trans rfl, hr.2.trans rfl⟩

theorem lineTriggers_false (lvm cutoff : Int) (l : String) (rev : Int)
    (b : String) (m : Int) (hp : parseProgress l = some (rev, b, m))
    (h : lineTriggers lvm cutoff l = false) :
    ¬ rev ≥ cutoff ∧ ¬ m > lvm := by
  simp only [lineTriggers, hp] at h
  constructor <;> intro hcon
  · rw [decide_eq_true hcon] at h
    simp at h
  · rw [decide_eq_true hcon] at h
    simp at h

theorem scanLines_clean (lvm cutoff : Int) (L : List String)
    (hL : ∀ l ∈ L, lineTriggers lvm cutoff l = false) :
    ∀ (idx : Nat) (r0 : Int) (st : IncRepo),
      ∃ st1, scanLines lvm cutoff L idx r0 st =
        .clean (lastRevFold r0 L) st1 := by
  induction L with
  | nil =>
    intro idx r0 st
    exact ⟨st, rfl⟩
  | cons line rest ih =>
    intro idx r0 st
    have hrest : ∀ l ∈ rest, lineTriggers lvm cutoff l = false :=
      fun l hl => hL l (List.mem_cons_of_mem _ hl)
    have htrig := hL line (List.mem_cons_self _ _)
    rcases hp : parseProgress line with _ | ⟨rev, b, m⟩
    · have hfold : lastRevFold r0 (line :: rest) = lastRevFold r0 rest := by
        simp [lastRevFold, hp]
      rw [hfold]
      obtain ⟨st1, h1⟩ := ih hrest (idx + 1) r0 st
      exact ⟨st1, by simp only [scanLines, hp]; exact h1⟩
    · have hnot : ¬ rev ≥ cutoff ∧ ¬ m > lvm :=
        lineTriggers_false lvm cutoff line rev b m hp htrig
      have hfold : lastRevFold r0 (line :: rest) = lastRevFold rev rest := by
        simp [lastRevFold, hp]
      rw [hfold]
      obtain ⟨st1, h1⟩ := ih hrest (idx + 1) rev (replayLine st rev b m)
      refine ⟨st1, ?_⟩
      simp only [scanLines, hp]
      rw [if_neg hnot.1, if_neg hnot.2]
      exact h1

theorem scanLines_trunc (lvm cutoff : Int) (line : String)
    (rest : List String) (rev : Int) (b : String) (m : Int)
    (hp : parseProgress line = some (rev, b, m))
    (hrev : rev < cutoff) (hm : lvm < m) :
    ∀ (pre : List String),
      (∀ l ∈ pre, lineTriggers lvm cutoff l = false) →
      ∀ (idx : Nat) (r0 : Int) (st : IncRepo),
        ∃ st1, scanLines lvm cutoff (pre ++ line :: rest) idx r0 st =
          .trunc (idx + pre.length) rev st1 := by
  intro pre
  induction pre with
  | nil =>
    intro _ idx r0 st
    refine ⟨st, ?_⟩
    simp only [List.nil_append, scanLines, hp]
    rw [if_neg (by omega), if_pos (by omega)]
    simp
  | cons p ps ih =>
    intro hpre idx r0 st
    have hps : ∀ l ∈ ps, lineTriggers lvm cutoff l = false :=
      fun l hl => hpre l (List.mem_cons_of_mem _ hl)
    have htrig := hpre p (List.mem_cons_self _ _)
    have hlen : idx + (p :: ps).length = (idx + 1) + ps.length := by
      simp [List.length_cons]
      omega
    rcases hq : parseProgress p with _ | ⟨rev', b', m'⟩
    · obtain ⟨st1, h1⟩ := ih hps (idx + 1) r0 st
      refine ⟨st1, ?_⟩
      simp only [List.cons_append, scanLines, hq]
      rw [hlen]
      exact h1
    · have hnot : ¬ rev' ≥ cutoff ∧ ¬ m' > lvm :=
        lineTriggers_false lvm cutoff p rev' b' m' hq htrig
      obtain ⟨st1, h1⟩ := ih hps (idx + 1) rev' (replayLine st rev' b' m')
      refine ⟨st1, ?_⟩
      simp only [List.cons_append, scanLines, hq]
      rw [if_neg hnot.1, if_neg hnot.2, hlen]
      exact h1

theorem setupIncremental_clean (cutoff : Int) (st : IncRepo)
    (L : List String) (hlog : st.logfile = some L) (r : Int) (st1 : IncRepo)
    (hscan : scanLines (lastValidMark st.marksfile).1 cutoff L 0 0 st =
      .clean r st1) :
    setupIncremental cutoff st =
      (if r + 1 = cutoff then (r + 1, cutoff, { st1 with bkup := none })
       else (r + 1, cutoff, st1)) := by
  simp only [setupIncremental, hlog, hscan]

theorem setupIncremental_trunc (cutoff : Int) (st : IncRepo)
    (L : List String) (hlog : st.logfile = some L) (p : Nat) (c : Int)
    (st1 : IncRepo)
    (hscan : scanLines (lastValidMark st.marksfile).1 cutoff L 0 0 st =
      .trunc p c st1) :
    setupIncremental cutoff st =
      (c, c, { st1 with bkup := some L, logfile := some (L.take p) }) := by
  simp only [setupIncremental, hlog, hscan]

/-- Claim C4: when the scan of `setupIncremental` reaches a progress line
(below the caller's cutoff) whose mark exceeds the marks file's last valid
mark, the function sets the cutoff to that line's revision, copies the whole
log to `<log>.old`, truncates the log at the start of that line (just after
the preceding line), and returns the cutoff; on a clean end of file it
returns `last_revnum + 1` instead. -/
theorem setup_incremental_rewind :
    (∀ st cutoff pre rest line rev b m,
      st.logfile = some (pre ++ line :: rest) →
      (∀ l ∈ pre,
        lineTriggers (lastValidMark st.marksfile).1 cutoff l = false) →
      parseProgress line = some (rev, b, m) →
      rev < cutoff → (lastValidMark st.marksfile).1 < m →
      (setupIncremental cutoff st).1 = rev ∧
      (setupIncremental cutoff st).2.1 = rev ∧
      (setupIncremental cutoff st).2.2.logfile = some pre ∧
      (setupIncremental cutoff st).2.2.bkup =
        some (pre ++ line :: rest)) ∧
    (∀ st cutoff L,
      st.logfile = some L →
      (∀ l ∈ L,
        lineTriggers (lastValidMark st.marksfile).1 cutoff l = false) →
      (setupIncremental cutoff st).1 = lastRevOf L + 1 ∧
      (setupIncremental cutoff st).2.1 = cutoff) := by
  constructor
  · intro st cutoff pre rest line rev b m hlog hpre hp hrev hm
    obtain ⟨st1, hscan⟩ := scanLines_trunc (lastValidMark st.marksfile).1
      cutoff line rest rev b m hp hrev hm pre hpre 0 0 st
    have hpos : (0 : Nat) + pre.length = pre.length := by omega
    rw [hpos] at hscan
    rw [setupIncremental_trunc cutoff st (pre ++ line :: rest) hlog
      pre.length rev st1 hscan]
    refine ⟨rfl, rfl, ?_, rfl⟩
    simp [List.take_left]
  · intro st cutoff L hlog hL
    obtain ⟨st1, hscan⟩ := scanLines_clean (lastValidMark st.marksfile).1
      cutoff L hL 0 0 st
    rw [setupIncremental_clean cutoff st L hlog (lastRevFold 0 L) st1 hscan,
      lastRevOf]
    by_cases hrc : lastRevFold 0 L + 1 = cutoff
    · rw [if_pos hrc]
      exact ⟨rfl, rfl⟩
    · rw [if_neg hrc]
      exact ⟨rfl, rfl⟩

/-- Witness for C4 at scenario S4: marks file valid through `:7`, log lines
at revisions 3 (mark 5) and 4 (mark 9), caller cutoff 100: the run rewinds
to revision 4, truncates the log to the revision-3 line, and backs up both
lines. -/
theorem setup_incremental_rewind_witness :
    (setupIncremental 100 s4State).1 = 4 ∧
    (setupIncremental 100 s4State).2.1 = 4 ∧
    (setupIncremental 100 s4State).2.2.logfile =
      some ["progress SVN r3 branch refs/heads/master = :5"] ∧
    (setupIncremental 100 s4State).2.2.bkup =
      some ["progress SVN r3 branch refs/heads/master = :5",
            "progress SVN r4 branch refs/heads/master = :9"] :=
  setup_incremental_rewind.1 s4State 100
    ["progress SVN r3 branch refs/heads/master = :5"] []
    ("progress SVN r4 branch refs/heads/master = :9") 4
    ("refs/heads/master") 9 rfl (by decide) (by decide) (by decide)
    (by decide)

/-- Claim C9: starting with no `<log>.old` backup present, running
`setupIncremental` and then `restoreLog`, with no intervening writes to the
log, leaves the log contents identical to what they were before
`setupIncremental` (`restoreLog` renames the backup over the log whenever it
exists and is a no-op when it does not). -/
theorem restore_log_roundtrip (st : IncRepo) (cutoff : Int)
    (hbk : st.bkup = none) :
    (restoreLog (setupIncremental cutoff st).2.2).logfile = st.logfile := by
  rcases hlog : st.logfile with _ | L
  · simp only [setupIncremental, hlog, restoreLog, hbk]
  · cases hscan : scanLines (lastValidMark st.marksfile).1 cutoff L 0 0 st
      with
    | clean r st1 =>
      have hpres := (scanLines_preserves (lastValidMark st.marksfile).1
        cutoff L 0 0 st).1 r st1 hscan
      rw [setupIncremental_clean cutoff st L hlog r st1 hscan]
      by_cases hrc : r + 1 = cutoff
      · rw [if_pos hrc]
        simp only [restoreLog]
        rw [hpres.1, hlog]
      · rw [if_neg hrc]
        simp only [restoreLog]
        rw [hpres.2, hbk]
        rw [hpres.1, hlog]
    | trunc p c st1 =>
      rw [setupIncremental_trunc cutoff st L hlog p c st1 hscan]
      simp only [restoreLog]

/-- Witness for C9: a state whose log holds one rewinding progress line and
whose marks file is empty round-trips: after `setupIncremental` (which
truncates) and `restoreLog`, the log content is restored. -/
theorem restore_log_roundtrip_witness :
    (restoreLog (setupIncremental 100 dupMarksState).2.2).logfile =
      dupMarksState.logfile :=
  restore_log_roundtrip dupMarksState 100 rfl

theorem alookup_append_missing {α : Type} (bs : List (String × α))
    (R : String) (v : α) (h : alookup bs R = none) :
    alookup (bs ++ [(R, v)]) R = some v := by
  induction bs with
  | nil => simp [alookup]
  | cons p rest ih =>
    obtain ⟨k', v'⟩ := p
    by_cases hk : k' = R
    · simp [alookup, if_pos hk] at h
    · simp only [List.cons_append, alookup, if_neg hk]
      exact ih (by simpa [alookup, if_neg hk] using h)

/-- Claim C10: a mere query `markFrom(R, q, desc)` for a ref `R` absent from
the branch registry — including through `noteCopyFromBranch` — returns −1
but also, through `QHash::operator[]`, inserts a default-constructed branch
record (`created = 0`, empty commits/marks) for `R`, so `branchExists(R)`
reports true afterwards even though no create, reset, or commit ever
targeted `R`. -/
theorem markFrom_inserts (bs : List (String × Branch)) (R : String)
    (q : Int) (h : alookup bs R = none) :
    branchExistsModel bs R = false ∧
    (markFromRepo bs R q).1 = -1 ∧
    (markFromRepo bs R q).2 = bs ++ [(R, defaultBranch)] ∧
    branchExistsModel (markFromRepo bs R q).2 R = true ∧
    (∀ selfB merges, selfB ≠ R →
      (noteCopyFromBranchModel bs selfB R q merges).2 =
        bs ++ [(R, defaultBranch)]) := by
  have hrepo : markFromRepo bs R q =
      (markFromBranch defaultBranch q, bs ++ [(R, defaultBranch)]) := by
    simp [markFromRepo, h]
  have hm1 : markFromBranch defaultBranch q = -1 := by
    simp [markFromBranch, defaultBranch]
  refine ⟨by simp [branchExistsModel, h], ?_, ?_, ?_, ?_⟩
  · rw [hrepo]
    exact hm1
  · rw [hrepo]
  · rw [hrepo]
    simp [branchExistsModel, alookup_append_missing bs R defaultBranch h]
  · intro selfB merges hne
    simp [noteCopyFromBranchModel, if_neg hne, hrepo, hm1]

/-- Witness for C10: querying an empty registry for `refs/heads/x` yields −1
yet `branchExists` holds afterwards, also via `noteCopyFromBranch`. -/
theorem markFrom_inserts_witness :
    (markFromRepo [] ("refs/heads/x") 5).1 = -1 ∧
    branchExistsModel (markFromRepo [] ("refs/heads/x") 5).2
      ("refs/heads/x") = true ∧
    (noteCopyFromBranchModel [] ("refs/heads/master") ("refs/heads/x") 5
      []).2 = [] ++ [("refs/heads/x", defaultBranch)] := by
  have h := markFrom_inserts [] ("refs/heads/x") 5 rfl
  exact ⟨h.2.1, h.2.2.2.1, h.2.2.2.2 ("refs/heads/master") [] (by decide)⟩

end Boost2Git
